import Mathlib

/-!
Verification of the string-search dataset utility (`src/app.py`).

The app loads a CSV into a pandas DataFrame, prepends a 1-based `row_num`
column, and offers four pure table operations:
* `get_matches` (prefix / substring / most-similar search on one column),
* `get_duplicated` (all rows whose key tuple repeats, dense-ranked `set`),
* `get_group` (rows clustered by `string_grouper` labels, dense-ranked `set`),
* `get_others` (complement via `pd.concat([df1, df2, df2]).drop_duplicates(keep=False)`).

Cells are modelled by `Value` (null / integer / string; pandas floats other
than NaN do not occur in the claims).  Stringification `strVal` models
`Series.astype(str)`: `str(nan) = "nan"`.  Sorting (`sort_values`) is modelled
by a deterministic comparison sort over a fixed total order on values; the
order among rows that compare equal under the sort key is not part of any
claim settled through these sorts.
-/

namespace StringSearch

/-- A cell value of a loaded table: missing (NaN), integer, or string. -/
inductive Value where
  | vnull : Value
  | vint : Int → Value
  | vstr : String → Value
deriving DecidableEq, Repr

/-- Models `Series.astype(str)` on a cell: Python `str(nan) = "nan"`, `str` of an
integer is its decimal form, strings are unchanged. -/
def strVal : Value → String
  | .vnull => "nan"
  | .vint n => toString n
  | .vstr s => s

/-- Encoding of `Value` into a lexicographic product, used to equip `Value`
with a total order (nulls first, then integers, then strings).  `sort_values`
and `rank` in the source compare cell values; the model uses this single
total order consistently for both. -/
def Value.enc : Value → Lex (Nat × Lex (Int × List Char))
  | .vnull => toLex (0, toLex (0, []))
  | .vint n => toLex (1, toLex (n, []))
  | .vstr s => toLex (2, toLex (0, s.data))

theorem Value.enc_injective : Function.Injective Value.enc := by
  intro a b h
  cases a <;> cases b <;>
    simp only [Value.enc, toLex_inj, Prod.mk.injEq] at h <;> simp_all
  rename_i s t
  cases s; cases t; simp_all

instance : LinearOrder Value := LinearOrder.lift' Value.enc Value.enc_injective

/-- A row of the loaded table: the list of its cell values, in column order. -/
abbrev Row := List Value

/-- Models `df[col]` at one row: the cell at column index `col`. -/
def getCol (r : Row) (c : Nat) : Value := r.getD c Value.vnull

/-- The tuple `df[cols]` of one row (the composite key used by
`df.duplicated(subset=cols)` and by the dense rank). -/
def keyTuple (K : List Nat) (r : Row) : List Value := K.map fun c => getCol r c

/-- Helper for `withRowNum`: number rows consecutively starting at `n`. -/
def numberFrom : Nat → List Row → List (Nat × Row)
  | _, [] => []
  | n, r :: t => (n, r) :: numberFrom (n + 1) t

/-- Models `dfn.insert(loc=0, column='row_num', value=np.arange(len(dfn))+1)`:
the loaded table with a 1-based row number attached to each row. -/
def withRowNum (t : List Row) : List (Nat × Row) := numberFrom 1 t

theorem numberFrom_le {n : Nat} {t : List Row} :
    ∀ p ∈ numberFrom n t, n ≤ p.1 := by
  induction t generalizing n with
  | nil => simp [numberFrom]
  | cons r t ih =>
      intro p hp
      simp only [numberFrom, List.mem_cons] at hp
      rcases hp with h | h
      · simp [h]
      · exact Nat.le_of_succ_le (ih p h)

theorem numberFrom_pairwise_lt {n : Nat} {t : List Row} :
    (numberFrom n t).Pairwise (fun p q => p.1 < q.1) := by
  induction t generalizing n with
  | nil => simp [numberFrom]
  | cons r t ih =>
      refine List.Pairwise.cons ?_ ih
      intro q hq
      exact Nat.lt_of_lt_of_le (Nat.lt_succ_self n) (numberFrom_le q hq)

theorem withRowNum_pairwise_lt {t : List Row} :
    (withRowNum t).Pairwise (fun p q => p.1 < q.1) := numberFrom_pairwise_lt

theorem withRowNum_nodup {t : List Row} : (withRowNum t).Nodup :=
  withRowNum_pairwise_lt.imp fun h => by
    intro he; exact absurd (congrArg Prod.fst he) (Nat.ne_of_lt h)

/-- Models `Series.drop_duplicates()`: keep the first occurrence of every value,
in order of first occurrence. -/
def firstDedup : List String → List String
  | [] => []
  | x :: xs => x :: (firstDedup xs).filter fun y => y != x

theorem mem_firstDedup {l : List String} {y : String} :
    y ∈ firstDedup l ↔ y ∈ l := by
  induction l with
  | nil => simp [firstDedup]
  | cons x xs ih =>
      by_cases hxy : y = x
      · simp [firstDedup, hxy]
      · simp [firstDedup, List.mem_filter, hxy, ih, bne_iff_ne]

theorem nodup_firstDedup {l : List String} : (firstDedup l).Nodup := by
  induction l with
  | nil => simp [firstDedup]
  | cons x xs ih =>
      refine List.Nodup.cons ?_ (ih.filter _)
      intro hx
      have := (List.mem_filter.mp hx).2
      simp at this

/-- One atom of a Python regular expression pattern, restricted to the
fragment exercised here: a literal character, or the metacharacter `.`
(which matches any character except a newline). -/
inductive RAtom where
  | rdot : RAtom
  | rlit : Char → RAtom
deriving DecidableEq, Repr

/-- Compile a pattern into atoms.  This is faithful to Python `re`
only for pattern strings whose characters are all regex-literal or the
metacharacter `.`; theorems that quantify over patterns carry that
restriction as a hypothesis. -/
def parsePat (s : List Char) : List RAtom :=
  s.map fun c => if c = '.' then RAtom.rdot else RAtom.rlit c

/-- Python `str.lower()`, modelled characterwise (faithful on ASCII data). -/
def pyLower (s : List Char) : List Char := s.map Char.toLower

def atomMatch : RAtom → Char → Bool
  | .rdot, c => c != '\n'
  | .rlit a, c => a == c

/-- Match a (literal/dot) pattern against an initial segment of the text. -/
def matchHere : List RAtom → List Char → Bool
  | [], _ => true
  | _ :: _, [] => false
  | p :: ps, c :: cs => atomMatch p c && matchHere ps cs

/-- Models `re.search` for the literal/dot fragment: the pattern matches starting
at some position of the text.  `pandas.Series.str.contains` uses exactly
this (regex) semantics by default. -/
def reSearch (pat : List RAtom) (s : List Char) : Bool :=
  match s with
  | [] => matchHere pat []
  | _ :: rest => matchHere pat s || reSearch pat rest

/-- Tests whether `needle` occurs as a leading segment of `hay` (character-exact). -/
def leadsWith : List Char → List Char → Bool
  | [], _ => true
  | _ :: _, [] => false
  | c :: cs, d :: ds => c == d && leadsWith cs ds

/-- Literal substring containment, written from the specification's words
(the spec describes `Contains` as a literal substring test); compared
against the source's regex-based condition. -/
def strContainsLit (hay needle : List Char) : Bool :=
  leadsWith needle hay ||
    match hay with
    | [] => false
    | _ :: t => strContainsLit t needle

/-- The comparison used by `dfn.sort_values(by=col)`: ascending by the raw
value of column `col`. -/
def byColLE (col : Nat) (a b : Nat × Row) : Prop :=
  getCol a.2 col ≤ getCol b.2 col

instance (col : Nat) : DecidableRel (byColLE col) := fun a b =>
  inferInstanceAs (Decidable (getCol a.2 col ≤ getCol b.2 col))

instance (col : Nat) : IsTotal (Nat × Row) (byColLE col) :=
  ⟨fun a b => le_total (getCol a.2 col) (getCol b.2 col)⟩

instance (col : Nat) : IsTrans (Nat × Row) (byColLE col) :=
  ⟨fun _ _ _ h h2 => le_trans h h2⟩

/-- Models `get_matches`, branch `option == 'Starts with'` (src/app.py:138-141):
filter by `df[col].astype(str).str.lower().str.startswith(input.lower())`,
then `sort_values(by=col)`. -/
def get_matches_sw (df : List (Nat × Row)) (col : Nat) (input : String) :
    List (Nat × Row) :=
  (df.filter fun p =>
      leadsWith (pyLower input.data)
        (pyLower (strVal (getCol p.2 col)).data)).insertionSort (byColLE col)

/-- Models `get_matches`, branch `option == 'Contains'` (src/app.py:143-146):
filter by `df[col].astype(str).str.lower().str.contains(input.lower())` —
whose default is `regex=True`, i.e. `re.search` — then `sort_values(by=col)`. -/
def get_matches_ct (df : List (Nat × Row)) (col : Nat) (input : String) :
    List (Nat × Row) :=
  (df.filter fun p =>
      reSearch (parsePat (pyLower input.data))
        (pyLower (strVal (getCol p.2 col)).data)).insertionSort (byColLE col)

/-- Models `string_grouper.match_strings(master, pd.Series(q), min_similarity)`:
every master string whose similarity to `q` reaches the threshold, paired
with that similarity.  The tf-idf n-gram cosine similarity lives in the
external `string_grouper` library, so it is abstracted as the parameter
`sim`; the library's contract is that matches are the pairs whose
similarity reaches `min_similarity`. -/
def match_strings (master : List String) (q : String)
    (sim : String → String → ℚ) (minSim : ℚ) : List (String × ℚ) :=
  (master.filter fun v => decide (minSim ≤ sim v q)).map fun v => (v, sim v q)

/-- The comparison used by `sort_values(by='similarity', ascending=False)`:
descending by the similarity component. -/
def bySimGE (a b : String × ℚ) : Prop := b.2 ≤ a.2

instance : DecidableRel bySimGE := fun a b =>
  inferInstanceAs (Decidable (b.2 ≤ a.2))

instance : IsTotal (String × ℚ) bySimGE := ⟨fun a b => le_total b.2 a.2⟩

instance : IsTrans (String × ℚ) bySimGE := ⟨fun _ _ _ h h2 => le_trans h2 h⟩

/-- Models `get_matches`, branch `option == 'Most similar'` (src/app.py:148-153):
score the query against `df[col].astype(str).drop_duplicates()` with
`min_similarity=0.4`, sort descending by similarity, then
`pd.merge(dfn, df, left_on='left_side', right_on=col)` (inner join keeping
left-key order, right-frame order within a key) and drop the match columns. -/
def get_matches_ms (df : List (Nat × Row)) (col : Nat) (input : String)
    (sim : String → String → ℚ) : List (Nat × Row) :=
  let master := firstDedup (df.map fun p => strVal (getCol p.2 col))
  let pairs := match_strings master input sim (mkRat 2 5)
  let sorted := pairs.insertionSort bySimGE
  (sorted.map fun pr =>
      df.filter fun p => decide (getCol p.2 col = Value.vstr pr.1)).flatten

/-- Models `df.duplicated(subset=cols, keep=False)` selection: the rows whose key
tuple occurs at least twice across the whole table. -/
def repRows (df : List (Nat × Row)) (K : List Nat) : List (Nat × Row) :=
  df.filter fun p =>
    decide (2 ≤ df.countP fun q => decide (keyTuple K q.2 = keyTuple K p.2))

/-- The comparison used by `sort_values(by=cols+['row_num'])`: lexicographic
by the key tuple, then by `row_num`. -/
def dupSortLE (K : List Nat) (a b : Nat × Row) : Prop :=
  toLex (keyTuple K a.2, a.1) ≤ toLex (keyTuple K b.2, b.1)

instance (K : List Nat) : DecidableRel (dupSortLE K) := fun _a _b =>
  inferInstanceAs (Decidable (_ ≤ _))

instance (K : List Nat) : IsTotal (Nat × Row) (dupSortLE K) :=
  ⟨fun a b => le_total (toLex (keyTuple K a.2, a.1)) (toLex (keyTuple K b.2, b.1))⟩

instance (K : List Nat) : IsTrans (Nat × Row) (dupSortLE K) :=
  ⟨fun _ _ _ h h2 => le_trans h h2⟩

/-- Models `Series.rank(method='dense').astype(int)` of `x` within the series `l`:
one plus the number of distinct values of the series strictly below `x`. -/
def denseRank {α : Type} [DecidableEq α] [LinearOrder α] (l : List α) (x : α) :
    Nat :=
  (l.dedup.filter fun y => decide (y < x)).length + 1

/-- Models `get_duplicated` (src/app.py:158-164): keep all rows with a repeated key
tuple, sort by the key columns then `row_num`, and prepend the `set` column,
the dense rank of the row's key tuple in the sorted series of key tuples. -/
def get_duplicated (df : List (Nat × Row)) (K : List Nat) :
    List (Nat × (Nat × Row)) :=
  let sorted := (repRows df K).insertionSort (dupSortLE K)
  sorted.map fun p =>
    (denseRank (sorted.map fun q => keyTuple K q.2) (keyTuple K p.2), p)

/-- Models `df[col].astype(str)` for the whole table. -/
def colStrings (df : List (Nat × Row)) (col : Nat) : List String :=
  df.map fun p => strVal (getCol p.2 col)

/-- Rows paired with their `group_similar_strings` label (the column
`deduplicated` of src/app.py:170).  The clustering itself lives in the
external `string_grouper` library and is abstracted as the parameter
`labels`, one label per row of the stringified column. -/
def taggedRows (df : List (Nat × Row)) (col : Nat)
    (labels : List String → List String) : List ((Nat × Row) × String) :=
  df.zip (labels (colStrings df col))

/-- The comparison used by `sort_values(by=['deduplicated', 'row_num'])`:
by label (lexicographically, as its character list), then by `row_num`. -/
def grpSortLE (a b : (Nat × Row) × String) : Prop :=
  toLex (a.2.data, a.1.1) ≤ toLex (b.2.data, b.1.1)

instance : DecidableRel grpSortLE := fun _a _b =>
  inferInstanceAs (Decidable (_ ≤ _))

instance : IsTotal ((Nat × Row) × String) grpSortLE :=
  ⟨fun a b => le_total (toLex (a.2.data, a.1.1)) (toLex (b.2.data, b.1.1))⟩

instance : IsTrans ((Nat × Row) × String) grpSortLE :=
  ⟨fun _ _ _ h h2 => le_trans (a := toLex _) h h2⟩

/-- Models `get_group` (src/app.py:167-177): label every row by
`group_similar_strings` over the stringified column, keep the rows whose
label group has more than one member (`groupby(...).filter(lambda x: len(x) > 1)`),
sort by label then `row_num`, prepend `set` = dense rank of the label, and
drop the label column. -/
def get_group (df : List (Nat × Row)) (col : Nat)
    (labels : List String → List String) : List (Nat × (Nat × Row)) :=
  let tagged := taggedRows df col labels
  let kept := tagged.filter fun p =>
    decide (2 ≤ tagged.countP fun q => decide (q.2 = p.2))
  let sorted := kept.insertionSort grpSortLE
  sorted.map fun p => (denseRank (sorted.map fun q => q.2.data) p.2.data, p.1)

/-- Models `DataFrame.drop_duplicates(keep=False)`: keep, in order, exactly the
rows whose full-row value occurs exactly once in the frame. -/
def dropDupKeepFalse {α : Type} [DecidableEq α] (l : List α) : List α :=
  l.filter fun x => decide ((l.countP fun y => decide (y = x)) = 1)

/-- Models `get_others` (src/app.py:181-183):
`pd.concat([df1, df2, df2]).drop_duplicates(keep=False)`. -/
def get_others {α : Type} [DecidableEq α] (df1 df2 : List α) : List α :=
  dropDupKeepFalse (df1 ++ df2 ++ df2)

/-!
A heap of dataframes.

The source mutates pandas frames in place (`inplace=True` sorts, `insert`,
`drop`, column assignment), always on frames freshly created inside the
function (`copy()`, a filter result, a `merge` result), never on the
argument.  To state that the operations leave their input table unchanged,
frames are kept in an explicit heap of numbered cells and each source
function is translated as a heap program: one `hAlloc` per frame creation,
one `hSet` per in-place mutation, mirroring src/app.py line by line.
-/

/-- The possible shapes of a pandas frame appearing in the source. -/
inductive Frame where
  | base (t : List Row)
  | numbered (t : List (Nat × Row))
  | tagged (t : List (Nat × (Nat × Row)))
  | labeled (t : List ((Nat × Row) × String))
  | ltag (t : List (Nat × ((Nat × Row) × String)))
  | pairs (t : List (String × ℚ))
  | merged (t : List ((String × ℚ) × (Nat × Row)))
deriving DecidableEq

/-- A heap of frames: an allocation counter and the allocated cells
(most recent first; `hGet` reads the most recent binding of an id). -/
structure Heap where
  next : Nat
  cells : List (Nat × Frame)
deriving DecidableEq

/-- Read the frame currently bound to id `i`. -/
def hGet (h : Heap) (i : Nat) : Option Frame :=
  (h.cells.find? fun c => c.1 == i).map Prod.snd

/-- Allocate a fresh frame (frame creation: `copy()`, filtering, `merge`,
`concat`, `match_strings`, ...). -/
def hAlloc (h : Heap) (f : Frame) : Heap × Nat :=
  (⟨h.next + 1, (h.next, f) :: h.cells⟩, h.next)

/-- Overwrite the frame bound to id `i` (in-place mutation: `inplace=True`
sorts, `insert`, `drop(..., inplace=True)`, column assignment). -/
def hSet (h : Heap) (i : Nat) (f : Frame) : Heap :=
  ⟨h.next, (i, f) :: h.cells⟩

/-- Every allocated cell lies below the allocation counter. -/
def Heap.WF (h : Heap) : Prop := ∀ c ∈ h.cells, c.1 < h.next

instance (h : Heap) : Decidable h.WF :=
  inferInstanceAs (Decidable (∀ c ∈ h.cells, c.1 < h.next))

inductive MatchMode where
  | sw | ct | ms
deriving DecidableEq

/-- Models `get_matches` (src/app.py:136-155) as a heap program acting on the
frame bound to `dfId`; returns the updated heap and the id of the result
frame.  Each branch first allocates the fresh frame the source creates,
then performs the source's in-place updates on that fresh id only. -/
def get_matches_h (h : Heap) (dfId : Nat) (col : Nat) (input : String)
    (mode : MatchMode) (sim : String → String → ℚ) : Heap × Option Nat :=
  match hGet h dfId with
  | some (.numbered df) =>
    match mode with
    | .sw =>
      let flt := df.filter fun p =>
        leadsWith (pyLower input.data) (pyLower (strVal (getCol p.2 col)).data)
      let al := hAlloc h (.numbered flt)
      let h2 := hSet al.1 al.2 (.numbered (get_matches_sw df col input))
      (h2, some al.2)
    | .ct =>
      let flt := df.filter fun p =>
        reSearch (parsePat (pyLower input.data))
          (pyLower (strVal (getCol p.2 col)).data)
      let al := hAlloc h (.numbered flt)
      let h2 := hSet al.1 al.2 (.numbered (get_matches_ct df col input))
      (h2, some al.2)
    | .ms =>
      let prs := match_strings
        (firstDedup (df.map fun p => strVal (getCol p.2 col))) input sim
        (mkRat 2 5)
      let al := hAlloc h (.pairs prs)
      let sortedPrs := prs.insertionSort bySimGE
      let h2 := hSet al.1 al.2 (.pairs sortedPrs)
      let mg := (sortedPrs.map fun pr =>
        (df.filter fun p =>
            decide (getCol p.2 col = Value.vstr pr.1)).map fun p =>
          (pr, p)).flatten
      let al2 := hAlloc h2 (.merged mg)
      let h3 := hSet al2.1 al2.2 (.numbered (get_matches_ms df col input sim))
      (h3, some al2.2)
  | _ => (h, none)

/-- Models `get_duplicated` (src/app.py:158-164) as a heap program: the
filter-and-sort creates one fresh frame; `insert(loc=0, column='set', ...)`
mutates that fresh frame in place. -/
def get_duplicated_h (h : Heap) (dfId : Nat) (K : List Nat) :
    Heap × Option Nat :=
  match hGet h dfId with
  | some (.numbered df) =>
    let al := hAlloc h (.numbered ((repRows df K).insertionSort (dupSortLE K)))
    let h2 := hSet al.1 al.2 (.tagged (get_duplicated df K))
    (h2, some al.2)
  | _ => (h, none)

/-- Models `get_group` (src/app.py:167-177) as a heap program: `df.copy()`
allocates, the `deduplicated` column assignment mutates the copy, the
groupby-filter-sort allocates a second frame, and `insert` / `drop`
mutate that second frame in place. -/
def get_group_h (h : Heap) (dfId : Nat) (col : Nat)
    (labels : List String → List String) : Heap × Option Nat :=
  match hGet h dfId with
  | some (.numbered df) =>
    let al := hAlloc h (.numbered df)
    let tagged := taggedRows df col labels
    let h2 := hSet al.1 al.2 (.labeled tagged)
    let kept := tagged.filter fun p =>
      decide (2 ≤ tagged.countP fun q => decide (q.2 = p.2))
    let sorted := kept.insertionSort grpSortLE
    let al2 := hAlloc h2 (.labeled sorted)
    let h3 := hSet al2.1 al2.2 (.ltag (sorted.map fun p =>
      (denseRank (sorted.map fun q => q.2.data) p.2.data, p)))
    let h4 := hSet h3 al2.2 (.tagged (get_group df col labels))
    (h4, some al2.2)
  | _ => (h, none)

/-- Models `get_others` (src/app.py:181-183) as a heap program: `pd.concat`
allocates a fresh frame, `drop_duplicates` (without `inplace`) allocates
another; nothing is mutated. -/
def get_others_h (h : Heap) (df1Id df2Id : Nat) : Heap × Option Nat :=
  match hGet h df1Id, hGet h df2Id with
  | some (.numbered d1), some (.numbered d2) =>
    let al := hAlloc h (.numbered (d1 ++ d2 ++ d2))
    let al2 := hAlloc al.1 (.numbered (get_others d1 d2))
    (al2.1, some al2.2)
  | _, _ => (h, none)

theorem hGet_hAlloc_of_lt {h : Heap} {f : Frame} {k : Nat} (hk : k < h.next) :
    hGet (hAlloc h f).1 k = hGet h k := by
  have : (h.next == k) = false := by
    simp only [beq_eq_false_iff_ne]; exact (Nat.ne_of_lt hk).symm
  simp [hGet, hAlloc, List.find?, this]

theorem hGet_hSet_of_ne {h : Heap} {f : Frame} {i k : Nat} (hk : k ≠ i) :
    hGet (hSet h i f) k = hGet h k := by
  have : (i == k) = false := by simp only [beq_eq_false_iff_ne]; exact hk.symm
  simp [hGet, hSet, List.find?, this]

@[simp]
theorem hAlloc_next {h : Heap} {f : Frame} : (hAlloc h f).1.next = h.next + 1 :=
  rfl

@[simp]
theorem hAlloc_snd {h : Heap} {f : Frame} : (hAlloc h f).2 = h.next := rfl

@[simp]
theorem hSet_next {h : Heap} {f : Frame} {i : Nat} :
    (hSet h i f).next = h.next := rfl

theorem lt_next_of_hGet {h : Heap} {i : Nat} {f : Frame} (hwf : h.WF)
    (hget : hGet h i = some f) : i < h.next := by
  unfold hGet at hget
  rcases h2 : h.cells.find? fun c => c.1 == i with _ | c
  · rw [h2] at hget; simp at hget
  · have hmem := List.mem_of_find?_eq_some h2
    have hpred := List.find?_some h2
    have : c.1 = i := by simpa using hpred
    exact this ▸ hwf c hmem

/-! ### Shared lemmas -/

theorem get_duplicated_map_snd (df : List (Nat × Row)) (K : List Nat) :
    (get_duplicated df K).map Prod.snd =
      (repRows df K).insertionSort (dupSortLE K) := by
  simp [get_duplicated, List.map_map, Function.comp_def]

theorem get_duplicated_snd_perm (df : List (Nat × Row)) (K : List Nat) :
    ((get_duplicated df K).map Prod.snd).Perm (repRows df K) := by
  rw [get_duplicated_map_snd]
  exact List.perm_insertionSort _ _

theorem mem_repRows {df : List (Nat × Row)} {K : List Nat} {r : Nat × Row} :
    r ∈ repRows df K ↔
      r ∈ df ∧
        2 ≤ df.countP fun q => decide (keyTuple K q.2 = keyTuple K r.2) := by
  simp [repRows, List.mem_filter]

theorem mem_get_duplicated_snd {df : List (Nat × Row)} {K : List Nat}
    {r : Nat × Row} :
    r ∈ (get_duplicated df K).map Prod.snd ↔
      r ∈ df ∧
        2 ≤ df.countP fun q => decide (keyTuple K q.2 = keyTuple K r.2) :=
  ((get_duplicated_snd_perm df K).mem_iff).trans mem_repRows

/-- C1 (claim): a row appears in `findDuplicates(T, K)` iff its key tuple
occurs at least twice across the whole of `T`; all occurrences of a
repeated tuple are kept (the full multiplicity of the row is preserved),
and rows with a unique key tuple are absent. -/
theorem duplicates_membership (df : List (Nat × Row)) (K : List Nat)
    (hK : K ≠ []) (r : Nat × Row) :
    (r ∈ (get_duplicated df K).map Prod.snd ↔
        r ∈ df ∧
          2 ≤ df.countP fun q => decide (keyTuple K q.2 = keyTuple K r.2)) ∧
      ((get_duplicated df K).map Prod.snd).countP (fun q => decide (q = r)) =
        if 2 ≤ df.countP fun q => decide (keyTuple K q.2 = keyTuple K r.2)
        then df.countP (fun q => decide (q = r)) else 0 := by
  have hperm := get_duplicated_snd_perm df K
  constructor
  · exact mem_get_duplicated_snd
  · rw [hperm.countP_eq, repRows, List.countP_filter]
    by_cases hc :
        2 ≤ df.countP fun q => decide (keyTuple K q.2 = keyTuple K r.2)
    · rw [if_pos hc]
      congr 1
      funext a
      by_cases ha : a = r
      · subst ha; simp [hc]
      · simp [ha]
    · rw [if_neg hc]
      rw [List.countP_eq_length_filter, List.length_eq_zero]
      rw [List.filter_eq_nil_iff]
      intro a ha
      simp only [Bool.and_eq_true, decide_eq_true_eq, not_and]
      intro haeq
      subst haeq
      exact fun hck => hc hck

/-- Witness for C1 on the spec's own example `id = [1,2,2,3]`, `K = [id]`:
the row `(2, [2])` has a repeated key and is kept with its multiplicity. -/
theorem duplicates_membership_witness :
    ([0] : List Nat) ≠ [] ∧
      (((2, [Value.vint 2]) ∈
            (get_duplicated
                (withRowNum [[Value.vint 1], [Value.vint 2], [Value.vint 2],
                  [Value.vint 3]])
                [0]).map
              Prod.snd ↔
          (2, [Value.vint 2]) ∈
              withRowNum [[Value.vint 1], [Value.vint 2], [Value.vint 2],
                [Value.vint 3]] ∧
            2 ≤
              (withRowNum [[Value.vint 1], [Value.vint 2], [Value.vint 2],
                    [Value.vint 3]]).countP
                fun q =>
                decide (keyTuple [0] q.2 = keyTuple [0] [Value.vint 2])) ∧
        ((get_duplicated
                (withRowNum [[Value.vint 1], [Value.vint 2], [Value.vint 2],
                  [Value.vint 3]])
                [0]).map
              Prod.snd).countP
            (fun q => decide (q = (2, [Value.vint 2]))) =
          if 2 ≤
              (withRowNum [[Value.vint 1], [Value.vint 2], [Value.vint 2],
                    [Value.vint 3]]).countP
                fun q =>
                decide (keyTuple [0] q.2 = keyTuple [0] [Value.vint 2])
          then
            (withRowNum [[Value.vint 1], [Value.vint 2], [Value.vint 2],
                  [Value.vint 3]]).countP
              (fun q => decide (q = (2, [Value.vint 2])))
          else 0) :=
  ⟨by decide,
    duplicates_membership
      (withRowNum [[Value.vint 1], [Value.vint 2], [Value.vint 2],
        [Value.vint 3]])
      [0] (by decide) (2, [Value.vint 2])⟩

/-- C9 (claim): `complement` removes rows duplicated inside `full` itself:
if a value-tuple occurs at least twice in `full` and not at all in
`subset`, none of its copies survive in `complement(full, subset)`. -/
theorem complement_drops_internal_duplicates (full subset : List Row)
    (x : Row) (hdup : 2 ≤ full.countP fun y => decide (y = x))
    (hnot : x ∉ subset) : x ∉ get_others full subset := by
  intro hmem
  have hpred := (List.mem_filter.mp hmem).2
  have hcnt :
      ((full ++ subset ++ subset).countP fun y => decide (y = x)) = 1 := by
    simpa using hpred
  have hzero : (subset.countP fun y => decide (y = x)) = 0 := by
    rw [List.countP_eq_zero]
    intro a ha
    simp only [decide_eq_true_eq]
    intro heq; exact hnot (heq ▸ ha)
  rw [List.countP_append, List.countP_append, hzero] at hcnt
  omega

/-- Witness for C9: two copies of the row `[1]` in `full`, `subset` empty. -/
theorem complement_drops_internal_duplicates_witness :
    2 ≤ (([[Value.vint 1], [Value.vint 1]] : List Row).countP
        fun y => decide (y = [Value.vint 1])) ∧
      [Value.vint 1] ∉ ([] : List Row) ∧
      [Value.vint 1] ∉ get_others [[Value.vint 1], [Value.vint 1]] ([] : List Row) :=
  ⟨by decide, by decide,
    complement_drops_internal_duplicates [[Value.vint 1], [Value.vint 1]] []
      [Value.vint 1] (by decide) (by decide)⟩

theorem countP_eq_one_of_nodup_mem {α : Type} [DecidableEq α] {l : List α}
    {x : α} (hl : l.Nodup) (hx : x ∈ l) :
    (l.countP fun y => decide (y = x)) = 1 := by
  induction l with
  | nil => simp at hx
  | cons a t ih =>
      rcases List.nodup_cons.mp hl with ⟨hat, htn⟩
      rcases List.mem_cons.mp hx with h | h
      · subst h
        have hz : (t.countP fun y => decide (y = x)) = 0 := by
          rw [List.countP_eq_zero]
          intro b hb
          simp only [decide_eq_true_eq]
          intro hba; exact hat (hba ▸ hb)
        simp [List.countP_cons, hz]
      · rw [List.countP_cons]
        have hax : ¬(a = x) := fun he => hat (he ▸ h)
        simp only [decide_eq_true_eq, if_neg hax, Nat.add_zero]
        exact ih htn h

theorem countP_eq_zero_of_not_mem {α : Type} [DecidableEq α] {l : List α}
    {x : α} (hx : x ∉ l) : (l.countP fun y => decide (y = x)) = 0 := by
  rw [List.countP_eq_zero]
  intro a ha
  simp only [decide_eq_true_eq]
  intro heq; exact hx (heq ▸ ha)

/-- On duplicate-free inputs with `s ⊆ l`, the complement keeps exactly the
rows of `l` that do not occur in `s`, in order. -/
theorem get_others_eq_filter {α : Type} [DecidableEq α] (l s : List α)
    (hl : l.Nodup) (hs : s.Nodup) (hsub : s ⊆ l) :
    get_others l s = l.filter fun x => decide (x ∉ s) := by
  unfold get_others dropDupKeepFalse
  rw [List.filter_append, List.filter_append]
  have hsnil :
      ∀ t : List α, t = s →
        (s.filter fun x =>
            decide (((l ++ s ++ s).countP fun y => decide (y = x)) = 1)) = [] := by
    intro t _
    rw [List.filter_eq_nil_iff]
    intro a ha
    simp only [List.countP_append, decide_eq_true_eq]
    rw [countP_eq_one_of_nodup_mem hl (hsub ha),
      countP_eq_one_of_nodup_mem hs ha]
    omega
  rw [hsnil s rfl, List.append_nil, List.append_nil]
  apply List.filter_congr
  intro a ha
  simp only [List.countP_append, decide_eq_true_eq]
  rw [countP_eq_one_of_nodup_mem hl ha]
  by_cases has : a ∈ s
  · rw [countP_eq_one_of_nodup_mem hs has]
    simp [has]
  · rw [countP_eq_zero_of_not_mem has]
    simp [has]

/-- On duplicate-free inputs with `s ⊆ l`, complement and subset together
are a permutation of the whole table. -/
theorem get_others_append_perm {α : Type} [DecidableEq α] (l s : List α)
    (hl : l.Nodup) (hs : s.Nodup) (hsub : s ⊆ l) :
    (get_others l s ++ s).Perm l := by
  rw [get_others_eq_filter l s hl hs hsub]
  have hnotnot :
      (l.filter fun x => !decide (x ∉ s)) = l.filter fun x => decide (x ∈ s) := by
    apply List.filter_congr
    intro a _
    by_cases h : a ∈ s <;> simp [h]
  have hperm2 : (l.filter fun x => !decide (x ∉ s)).Perm s := by
    rw [hnotnot, List.perm_ext_iff_of_nodup (hl.filter _) hs]
    intro a
    simp only [List.mem_filter, decide_eq_true_eq]
    exact ⟨fun h => h.2, fun h => ⟨hsub h, h⟩⟩
  exact (List.Perm.append_left _ hperm2.symm).trans
    (List.filter_append_perm _ l)

theorem repRows_nodup {df : List (Nat × Row)} {K : List Nat}
    (h : df.Nodup) : (repRows df K).Nodup := h.filter _

theorem get_duplicated_snd_nodup {df : List (Nat × Row)} {K : List Nat}
    (h : df.Nodup) : ((get_duplicated df K).map Prod.snd).Nodup :=
  ((get_duplicated_snd_perm df K).nodup_iff).mpr (repRows_nodup h)

/-- C3 (claim): the complement of the duplicate view and the duplicate view
itself, as multisets of rows, reconstruct the numbered table exactly
(hence so does any projection of the rows, in particular onto the loaded
columns, ignoring the derived `set` column, which the `map Prod.snd`
projection already removes). -/
theorem complement_duplicates_reconstruct (t : List Row) (K : List Nat)
    (hK : K ≠ []) :
    (get_others (withRowNum t) ((get_duplicated (withRowNum t) K).map Prod.snd)
        ++ (get_duplicated (withRowNum t) K).map Prod.snd).Perm
      (withRowNum t) := by
  apply get_others_append_perm
  · exact withRowNum_nodup
  · exact get_duplicated_snd_nodup withRowNum_nodup
  · intro a ha
    exact (mem_get_duplicated_snd.mp ha).1

/-- Witness for C3 on the table `[[1], [2], [2], [3]]` with key `[0]`. -/
theorem complement_duplicates_reconstruct_witness :
    ([0] : List Nat) ≠ [] ∧
      (get_others
            (withRowNum [[Value.vint 1], [Value.vint 2], [Value.vint 2],
              [Value.vint 3]])
            ((get_duplicated
                  (withRowNum [[Value.vint 1], [Value.vint 2], [Value.vint 2],
                    [Value.vint 3]])
                  [0]).map
              Prod.snd) ++
          (get_duplicated
                (withRowNum [[Value.vint 1], [Value.vint 2], [Value.vint 2],
                  [Value.vint 3]])
                [0]).map
            Prod.snd).Perm
        (withRowNum [[Value.vint 1], [Value.vint 2], [Value.vint 2],
          [Value.vint 3]]) :=
  ⟨by decide,
    complement_duplicates_reconstruct
      [[Value.vint 1], [Value.vint 2], [Value.vint 2], [Value.vint 3]] [0]
      (by decide)⟩

theorem mem_get_matches_ct {df : List (Nat × Row)} {col : Nat}
    {input : String} {p : Nat × Row} :
    p ∈ get_matches_ct df col input ↔
      p ∈ df ∧
        reSearch (parsePat (pyLower input.data))
            (pyLower (strVal (getCol p.2 col)).data) = true := by
  simp [get_matches_ct, List.mem_filter]

theorem mem_get_matches_sw {df : List (Nat × Row)} {col : Nat}
    {input : String} {p : Nat × Row} :
    p ∈ get_matches_sw df col input ↔
      p ∈ df ∧
        leadsWith (pyLower input.data)
            (pyLower (strVal (getCol p.2 col)).data) = true := by
  simp [get_matches_sw, List.mem_filter]

/-- C5 (counterexample): on the one-row table with value `"abc"` and the
query `"a.c"`, the Contains match includes the row — `str.contains`
defaults to `regex=True`, so `.` matches any character — although `"a.c"`
is not a literal substring of `"abc"`.  This refutes the claim that a row
is included iff the lowercased value contains the lowercased query as a
literal substring. -/
theorem contains_literal_cex :
    (1, [Value.vstr ("abc")]) ∈
        get_matches_ct (withRowNum [[Value.vstr ("abc")]]) 0 ("a.c") ∧
      strContainsLit (pyLower (strVal (getCol [Value.vstr ("abc")] 0)).data)
          (pyLower ("a.c").data) = false := by
  constructor
  · decide
  · decide

/-- C5 (amended): for queries made of regex-literal characters and the
metacharacter `.` (the fragment on which the embedding models Python
`re`), the Contains match includes a row iff the lowercased query,
interpreted as a regular expression, matches somewhere inside the
lowercased stringification of the row's value in `col` — `str.contains`
uses `re.search`, not a literal substring test. -/
theorem contains_regex_membership (t : List Row) (col : Nat) (input : String)
    (hfrag : ∀ c ∈ input.data, c.isAlphanum = true ∨ c = '.' ∨ c = ' ')
    (hq : input ≠ "") (p : Nat × Row) :
    p ∈ get_matches_ct (withRowNum t) col input ↔
      p ∈ withRowNum t ∧
        reSearch (parsePat (pyLower input.data))
            (pyLower (strVal (getCol p.2 col)).data) = true :=
  mem_get_matches_ct

/-- Witness for the amended C5: query `"n.c"` against the table
`[["inc"], ["xyz"]]` keeps exactly the `"inc"` row. -/
theorem contains_regex_membership_witness :
    (∀ c ∈ ("n.c" : String).data, c.isAlphanum = true ∨ c = '.' ∨ c = ' ') ∧
      ("n.c" : String) ≠ "" ∧
      ((1, [Value.vstr ("inc")]) ∈
          get_matches_ct (withRowNum [[Value.vstr ("inc")], [Value.vstr ("xyz")]]) 0
            ("n.c") ↔
        (1, [Value.vstr ("inc")]) ∈
            withRowNum [[Value.vstr ("inc")], [Value.vstr ("xyz")]] ∧
          reSearch (parsePat (pyLower ("n.c" : String).data))
              (pyLower (strVal (getCol [Value.vstr ("inc")] 0)).data) = true) :=
  ⟨by decide, by decide,
    contains_regex_membership [[Value.vstr ("inc")], [Value.vstr ("xyz")]] 0
      ("n.c") (by decide) (by decide) (1, [Value.vstr ("inc")])⟩

/-- C10 (counterexample): a null cell stringifies to `"nan"`; with the
query `"n.n"` the Contains match includes the null row (regex `.`), yet
`"n.n"` is not a literal substring of `"nan"`.  This refutes the clause
that a null row is included in Contains exactly when the lowercased query
is a substring of `"nan"`. -/
theorem null_contains_cex :
    (1, [Value.vnull]) ∈
        get_matches_ct (withRowNum [[Value.vnull]]) 0 ("n.n") ∧
      strContainsLit (("nan" : String).data) (pyLower ("n.n").data) = false := by
  constructor
  · decide
  · decide

/-- C10 (amended): a null cell stringifies to `"nan"` (already lowercase);
for queries made of regex-literal characters and the metacharacter `.`
(the fragment on which the embedding models Python `re`, as in the
amended C5), a null row is included by StartsWith exactly when the
lowercased query is a literal character-for-character leading segment of
`"nan"`, and by Contains exactly when the lowercased query, interpreted
as a regular expression, matches somewhere inside `"nan"`. -/
theorem null_match_nan (t : List Row) (col : Nat) (q : String) (p : Nat × Row)
    (hfrag : ∀ c ∈ q.data, c.isAlphanum = true ∨ c = '.' ∨ c = ' ')
    (hp : p ∈ withRowNum t) (hnull : getCol p.2 col = Value.vnull) :
    strVal (getCol p.2 col) = "nan" ∧
      (p ∈ get_matches_sw (withRowNum t) col q ↔
        leadsWith (pyLower q.data) (("nan" : String).data) = true) ∧
      (p ∈ get_matches_ct (withRowNum t) col q ↔
        reSearch (parsePat (pyLower q.data)) (("nan" : String).data) = true) := by
  have hsv : strVal (getCol p.2 col) = "nan" := by rw [hnull]; rfl
  have hlow : pyLower (strVal (getCol p.2 col)).data = ("nan" : String).data := by
    rw [hsv]; decide
  refine ⟨hsv, ?_, ?_⟩
  · rw [mem_get_matches_sw, hlow]
    exact ⟨fun h => h.2, fun h => ⟨hp, h⟩⟩
  · rw [mem_get_matches_ct, hlow]
    exact ⟨fun h => h.2, fun h => ⟨hp, h⟩⟩

/-- Witness for the amended C10: the query `"na"` matches the null row
both by prefix and by substring/regex. -/
theorem null_match_nan_witness :
    (∀ c ∈ ("na" : String).data, c.isAlphanum = true ∨ c = '.' ∨ c = ' ') ∧
      (1, [Value.vnull]) ∈ withRowNum [[Value.vnull]] ∧
      getCol ([Value.vnull] : Row) 0 = Value.vnull ∧
      (strVal (getCol ([Value.vnull] : Row) 0) = "nan" ∧
        ((1, [Value.vnull]) ∈ get_matches_sw (withRowNum [[Value.vnull]]) 0 ("na") ↔
          leadsWith (pyLower ("na" : String).data) (("nan" : String).data) = true) ∧
        ((1, [Value.vnull]) ∈ get_matches_ct (withRowNum [[Value.vnull]]) 0 ("na") ↔
          reSearch (parsePat (pyLower ("na" : String).data))
              (("nan" : String).data) = true)) :=
  ⟨by decide, by decide, by decide,
    null_match_nan [[Value.vnull]] 0 ("na") (1, [Value.vnull]) (by decide)
      (by decide) (by decide)⟩

/-- C8 (claim): every operation, run on the frame bound to `dfId`, leaves
every frame already present in the heap — in particular its input table —
bound to exactly the same contents: the in-place pandas mutations of the
source only ever hit frames freshly allocated inside the call. -/
theorem operations_preserve_input (h : Heap) (i : Nat) (f : Frame)
    (hwf : h.WF) (hget : hGet h i = some f) (dfId col : Nat) (input : String)
    (mode : MatchMode) (sim : String → String → ℚ) (K : List Nat)
    (labels : List String → List String) (j : Nat) :
    hGet (get_matches_h h dfId col input mode sim).1 i = some f ∧
      hGet (get_duplicated_h h dfId K).1 i = some f ∧
      hGet (get_group_h h dfId col labels).1 i = some f ∧
      hGet (get_others_h h dfId j).1 i = some f := by
  have hi : i < h.next := lt_next_of_hGet hwf hget
  have hi1 : i < h.next + 1 := Nat.lt_succ_of_lt hi
  have hne : i ≠ h.next := Nat.ne_of_lt hi
  have hne1 : i ≠ h.next + 1 := Nat.ne_of_lt hi1
  refine ⟨?_, ?_, ?_, ?_⟩
  · unfold get_matches_h
    rcases hd : hGet h dfId with _ | fr
    · simpa [hd] using hget
    · cases fr <;> try simpa [hd] using hget
      cases mode
      · rename_i df
        simp only [hd, hAlloc_snd]
        rw [hGet_hSet_of_ne hne, hGet_hAlloc_of_lt hi]
        exact hget
      · rename_i df
        simp only [hd, hAlloc_snd]
        rw [hGet_hSet_of_ne hne, hGet_hAlloc_of_lt hi]
        exact hget
      · rename_i df
        simp only [hd, hAlloc_snd, hAlloc_next, hSet_next]
        rw [hGet_hSet_of_ne hne1,
          hGet_hAlloc_of_lt (by simp [hi1]),
          hGet_hSet_of_ne hne, hGet_hAlloc_of_lt hi]
        exact hget
  · unfold get_duplicated_h
    rcases hd : hGet h dfId with _ | fr
    · simpa [hd] using hget
    · cases fr <;> try simpa [hd] using hget
      rename_i df
      simp only [hd, hAlloc_snd]
      rw [hGet_hSet_of_ne hne, hGet_hAlloc_of_lt hi]
      exact hget
  · unfold get_group_h
    rcases hd : hGet h dfId with _ | fr
    · simpa [hd] using hget
    · cases fr <;> try simpa [hd] using hget
      rename_i df
      simp only [hd, hAlloc_snd, hAlloc_next, hSet_next]
      rw [hGet_hSet_of_ne hne1, hGet_hSet_of_ne hne1,
        hGet_hAlloc_of_lt (by simp [hi1]),
        hGet_hSet_of_ne hne, hGet_hAlloc_of_lt hi]
      exact hget
  · unfold get_others_h
    rcases hd : hGet h dfId with _ | fr
    · simpa [hd] using hget
    · rcases hj2 : hGet h j with _ | fr2
      · cases fr <;> simpa [hd, hj2] using hget
      · cases fr <;> cases fr2 <;> try simpa [hd, hj2] using hget
        rename_i d1 d2
        simp only [hd, hj2]
        rw [hGet_hAlloc_of_lt (by simp [hi1]), hGet_hAlloc_of_lt hi]
        exact hget

/-- Witness for C8: a one-cell heap holding a two-row table; every
operation leaves that cell's frame intact. -/
theorem operations_preserve_input_witness :
    (Heap.mk 1 [(0, Frame.numbered [(1, [Value.vint 1]), (2, [Value.vint 1])])]).WF ∧
      hGet (Heap.mk 1 [(0, Frame.numbered [(1, [Value.vint 1]), (2, [Value.vint 1])])]) 0 =
        some (Frame.numbered [(1, [Value.vint 1]), (2, [Value.vint 1])]) ∧
      (hGet
            (get_matches_h
              (Heap.mk 1 [(0, Frame.numbered [(1, [Value.vint 1]), (2, [Value.vint 1])])])
              0 0 ("a") MatchMode.sw (fun _ _ => 1)).1 0 =
          some (Frame.numbered [(1, [Value.vint 1]), (2, [Value.vint 1])]) ∧
        hGet
            (get_duplicated_h
              (Heap.mk 1 [(0, Frame.numbered [(1, [Value.vint 1]), (2, [Value.vint 1])])])
              0 [0]).1 0 =
          some (Frame.numbered [(1, [Value.vint 1]), (2, [Value.vint 1])]) ∧
        hGet
            (get_group_h
              (Heap.mk 1 [(0, Frame.numbered [(1, [Value.vint 1]), (2, [Value.vint 1])])])
              0 0 (fun l => l)).1 0 =
          some (Frame.numbered [(1, [Value.vint 1]), (2, [Value.vint 1])]) ∧
        hGet
            (get_others_h
              (Heap.mk 1 [(0, Frame.numbered [(1, [Value.vint 1]), (2, [Value.vint 1])])])
              0 0).1 0 =
          some (Frame.numbered [(1, [Value.vint 1]), (2, [Value.vint 1])])) :=
  ⟨by decide, by decide,
    operations_preserve_input
      (Heap.mk 1 [(0, Frame.numbered [(1, [Value.vint 1]), (2, [Value.vint 1])])])
      0 (Frame.numbered [(1, [Value.vint 1]), (2, [Value.vint 1])]) (by decide)
      (by decide) 0 0 ("a") MatchMode.sw (fun _ _ => 1) [0] (fun l => l) 0⟩

theorem get_group_map_snd (df : List (Nat × Row)) (col : Nat)
    (labels : List String → List String) :
    (get_group df col labels).map Prod.snd =
      (((taggedRows df col labels).filter fun p =>
            decide
              (2 ≤ (taggedRows df col labels).countP fun q =>
                  decide (q.2 = p.2))).insertionSort grpSortLE).map
        Prod.fst := by
  simp [get_group, List.map_map, Function.comp_def]

/-- C4 (claim): every row returned by `groupSimilar` belongs to a cluster
(of the labelling over the stringified column) with at least two members,
and a row whose cluster has exactly one member never appears. -/
theorem group_minimum_cluster (t : List Row) (col : Nat)
    (labels : List String → List String)
    (hlen :
      (labels (colStrings (withRowNum t) col)).length = (withRowNum t).length) :
    (∀ q ∈ (get_group (withRowNum t) col labels).map Prod.snd,
        ∃ lab,
          (q, lab) ∈ taggedRows (withRowNum t) col labels ∧
            2 ≤ (taggedRows (withRowNum t) col labels).countP fun p2 =>
                decide (p2.2 = lab)) ∧
      ∀ q lab,
        (q, lab) ∈ taggedRows (withRowNum t) col labels →
          ((taggedRows (withRowNum t) col labels).countP fun p2 =>
              decide (p2.2 = lab)) = 1 →
          q ∉ (get_group (withRowNum t) col labels).map Prod.snd := by
  have hfst :
      (taggedRows (withRowNum t) col labels).map Prod.fst = withRowNum t := by
    unfold taggedRows
    exact List.map_fst_zip _ _ (le_of_eq hlen.symm)
  have hinj :
      ∀ pr ∈ taggedRows (withRowNum t) col labels,
        ∀ pr2 ∈ taggedRows (withRowNum t) col labels,
          pr.1 = pr2.1 → pr = pr2 := by
    intro pr hpr pr2 hpr2 he
    have hnd : ((taggedRows (withRowNum t) col labels).map Prod.fst).Nodup := by
      rw [hfst]; exact withRowNum_nodup
    exact List.inj_on_of_nodup_map hnd hpr hpr2 he
  constructor
  · intro q hq
    rw [get_group_map_snd] at hq
    rcases List.mem_map.mp hq with ⟨pr, hpr, hq1⟩
    rw [List.mem_insertionSort] at hpr
    rcases List.mem_filter.mp hpr with ⟨hmem, hcnt⟩
    refine ⟨pr.2, ?_, by simpa using hcnt⟩
    have : (q, pr.2) = pr := by
      rw [← hq1]
    rw [this]; exact hmem
  · intro q lab hmem hone hq
    rw [get_group_map_snd] at hq
    rcases List.mem_map.mp hq with ⟨pr, hpr, hq1⟩
    rw [List.mem_insertionSort] at hpr
    rcases List.mem_filter.mp hpr with ⟨hmem2, hcnt⟩
    have hpe : pr = (q, lab) := hinj pr hmem2 (q, lab) hmem (by simp [hq1])
    rw [hpe] at hcnt
    simp only [decide_eq_true_eq] at hcnt
    omega

/-- Witness for C4, on the spec's clustering example shape: labels map
`"z"` to `"y"`, so rows 2 and 3 form a cluster of size two and row 1 is a
singleton that is excluded. -/
theorem group_minimum_cluster_witness :
    ((fun l : List String => l.map fun s => if s = "z" then ("y") else s)
          (colStrings
            (withRowNum [[Value.vstr ("x")], [Value.vstr ("y")], [Value.vstr ("z")]])
            0)).length =
        (withRowNum [[Value.vstr ("x")], [Value.vstr ("y")], [Value.vstr ("z")]]).length ∧
      ((∀ q ∈ (get_group
              (withRowNum [[Value.vstr ("x")], [Value.vstr ("y")], [Value.vstr ("z")]])
              0 (fun l : List String => l.map fun s => if s = "z" then ("y") else s)).map
            Prod.snd,
          ∃ lab,
            (q, lab) ∈ taggedRows
                (withRowNum [[Value.vstr ("x")], [Value.vstr ("y")], [Value.vstr ("z")]])
                0 (fun l : List String => l.map fun s => if s = "z" then ("y") else s) ∧
              2 ≤ (taggedRows
                    (withRowNum
                      [[Value.vstr ("x")], [Value.vstr ("y")], [Value.vstr ("z")]])
                    0 (fun l : List String => l.map fun s => if s = "z" then ("y") else s)).countP
                  fun p2 => decide (p2.2 = lab)) ∧
        ∀ q lab,
          (q, lab) ∈ taggedRows
              (withRowNum [[Value.vstr ("x")], [Value.vstr ("y")], [Value.vstr ("z")]])
              0 (fun l : List String => l.map fun s => if s = "z" then ("y") else s) →
            ((taggedRows
                  (withRowNum [[Value.vstr ("x")], [Value.vstr ("y")], [Value.vstr ("z")]])
                  0 (fun l : List String => l.map fun s => if s = "z" then ("y") else s)).countP
                fun p2 => decide (p2.2 = lab)) = 1 →
            q ∉ (get_group
                (withRowNum [[Value.vstr ("x")], [Value.vstr ("y")], [Value.vstr ("z")]])
                0 (fun l : List String => l.map fun s => if s = "z" then ("y") else s)).map
              Prod.snd) :=
  ⟨by decide,
    group_minimum_cluster [[Value.vstr ("x")], [Value.vstr ("y")], [Value.vstr ("z")]]
      0 (fun l : List String => l.map fun s => if s = "z" then ("y") else s) (by decide)⟩

theorem mem_get_matches_ms {df : List (Nat × Row)} {col : Nat}
    {input : String} {sim : String → String → ℚ} {p : Nat × Row} :
    p ∈ get_matches_ms df col input sim ↔
      p ∈ df ∧
        ∃ v, getCol p.2 col = Value.vstr v ∧ mkRat 2 5 ≤ sim v input := by
  unfold get_matches_ms
  simp only [List.mem_flatten, List.mem_map, List.mem_insertionSort]
  constructor
  · rintro ⟨l, ⟨pr, hpr, rfl⟩, hpl⟩
    rcases List.mem_filter.mp hpl with ⟨hpdf, hcol⟩
    rcases List.mem_map.mp hpr with ⟨v, hvf, hveq⟩
    rcases List.mem_filter.mp hvf with ⟨_, hvs⟩
    refine ⟨hpdf, v, ?_, by simpa using hvs⟩
    have : pr.1 = v := by rw [← hveq]
    simpa [this] using hcol
  · rintro ⟨hpdf, v, hcol, hsim⟩
    refine ⟨(df.filter fun p2 => decide (getCol p2.2 col = Value.vstr v)),
      ⟨(v, sim v input), ?_, rfl⟩, ?_⟩
    · refine List.mem_map.mpr ⟨v, List.mem_filter.mpr ⟨?_, by simpa⟩, rfl⟩
      refine mem_firstDedup.mpr (List.mem_map.mpr ⟨p, hpdf, ?_⟩)
      rw [hcol]; rfl
    · exact List.mem_filter.mpr ⟨hpdf, by simpa⟩

/-- C2 (claim): for a non-empty query, the MostSimilar pipeline
(i) returns exactly the rows whose raw value in `col` is a string whose
similarity to the query reaches the `0.4` threshold (scored against the
distinct stringified values; join-expansion brings back every original
row sharing a matched value);
(ii) orders the result by non-increasing similarity;
(iii) keeps rows of one join-expansion group (rows sharing the matched
value) in the order of their `row_num`.
The tf-idf cosine similarity of the external `string_grouper` library is
abstracted as the parameter `sim`. -/
theorem mostsimilar_pipeline (t : List Row) (col : Nat) (input : String)
    (sim : String → String → ℚ) (hq : input ≠ "") :
    (∀ p, p ∈ get_matches_ms (withRowNum t) col input sim ↔
        p ∈ withRowNum t ∧
          ∃ v, getCol p.2 col = Value.vstr v ∧ mkRat 2 5 ≤ sim v input) ∧
      ((get_matches_ms (withRowNum t) col input sim).map fun p =>
          sim (strVal (getCol p.2 col)) input).Pairwise (· ≥ ·) ∧
      (get_matches_ms (withRowNum t) col input sim).Pairwise fun p p2 =>
        getCol p.2 col = getCol p2.2 col → p.1 < p2.1 := by
  have hres : get_matches_ms (withRowNum t) col input sim =
      (((match_strings
              (firstDedup ((withRowNum t).map fun p => strVal (getCol p.2 col)))
              input sim (mkRat 2 5)).insertionSort bySimGE).map fun pr =>
          (withRowNum t).filter fun p =>
            decide (getCol p.2 col = Value.vstr pr.1)).flatten := rfl
  set master :=
    firstDedup ((withRowNum t).map fun p => strVal (getCol p.2 col)) with hm
  set pairs := match_strings master input sim (mkRat 2 5) with hpr
  set sorted := pairs.insertionSort bySimGE with hs
  have hsortedP : sorted.Pairwise bySimGE := List.sorted_insertionSort _ _
  have hperm : sorted.Perm pairs := List.perm_insertionSort _ _
  have hsnd : ∀ pr ∈ sorted, pr.2 = sim pr.1 input := by
    intro pr hprm
    have : pr ∈ pairs := hperm.mem_iff.mp hprm
    rcases List.mem_map.mp this with ⟨v, _, hveq⟩
    rw [← hveq]
  have hfstne : sorted.Pairwise fun a b => a.1 ≠ b.1 := by
    have h1 : (pairs.map Prod.fst).Nodup := by
      have : pairs.map Prod.fst =
          master.filter fun v => decide (mkRat 2 5 ≤ sim v input) := by
        rw [hpr]; unfold match_strings
        rw [List.map_map]; simp [Function.comp_def]
      rw [this]
      exact nodup_firstDedup.filter _
    have h2 : (sorted.map Prod.fst).Nodup :=
      ((hperm.map Prod.fst).nodup_iff).mpr h1
    exact List.pairwise_map.mp h2
  have hgconst : ∀ pr : String × ℚ,
      ∀ x ∈ (withRowNum t).filter fun p =>
          decide (getCol p.2 col = Value.vstr pr.1),
        sim (strVal (getCol x.2 col)) input = sim pr.1 input := by
    intro pr x hx
    have hcol := (List.mem_filter.mp hx).2
    simp only [decide_eq_true_eq] at hcol
    rw [hcol]; rfl
  refine ⟨fun p => mem_get_matches_ms, ?_, ?_⟩
  · rw [hres, List.map_flatten, List.map_map, List.pairwise_flatten]
    constructor
    · intro l' hl'
      rcases List.mem_map.mp hl' with ⟨prm, _, rfl⟩
      apply List.pairwise_of_forall_mem_list
      intro a ha b hb
      simp only [Function.comp_def, List.mem_map] at ha hb
      rcases ha with ⟨x, hx, rfl⟩
      rcases hb with ⟨y, hy, rfl⟩
      rw [hgconst prm x hx, hgconst prm y hy]
    · rw [List.pairwise_map]
      refine hsortedP.imp_of_mem ?_
      intro a b ha hb hab
      intro x hx y hy
      simp only [Function.comp_def, List.mem_map] at hx hy
      rcases hx with ⟨x0, hx0, rfl⟩
      rcases hy with ⟨y0, hy0, rfl⟩
      rw [hgconst a x0 hx0, hgconst b y0 hy0, ← hsnd a ha, ← hsnd b hb]
      exact hab
  · rw [hres, List.pairwise_flatten]
    constructor
    · intro l' hl'
      rcases List.mem_map.mp hl' with ⟨prm, _, rfl⟩
      exact (withRowNum_pairwise_lt.filter _).imp fun h => fun _ => h
    · rw [List.pairwise_map]
      refine hfstne.imp_of_mem ?_
      intro a b _ _ hne x hx y hy heq
      have hxa := (List.mem_filter.mp hx).2
      have hyb := (List.mem_filter.mp hy).2
      simp only [decide_eq_true_eq] at hxa hyb
      rw [hxa, hyb] at heq
      exact absurd (Value.vstr.inj heq) hne

/-- Witness for C2: query `"q"`, constant similarity `1`, table with a
repeated value `"a"` — both `"a"` rows reappear, in `row_num` order. -/
theorem mostsimilar_pipeline_witness :
    ("q" : String) ≠ "" ∧
      ((∀ p, p ∈ get_matches_ms
            (withRowNum [[Value.vstr ("a")], [Value.vstr ("b")], [Value.vstr ("a")]]) 0
            ("q") (fun _ _ => 1) ↔
          p ∈ withRowNum [[Value.vstr ("a")], [Value.vstr ("b")], [Value.vstr ("a")]] ∧
            ∃ v, getCol p.2 0 = Value.vstr v ∧
              mkRat 2 5 ≤ (fun _ _ => (1 : ℚ)) v ("q")) ∧
        ((get_matches_ms
              (withRowNum [[Value.vstr ("a")], [Value.vstr ("b")], [Value.vstr ("a")]]) 0
              ("q") (fun _ _ => 1)).map fun p =>
            (fun _ _ => (1 : ℚ)) (strVal (getCol p.2 0)) ("q")).Pairwise (· ≥ ·) ∧
        (get_matches_ms
            (withRowNum [[Value.vstr ("a")], [Value.vstr ("b")], [Value.vstr ("a")]]) 0
            ("q") (fun _ _ => 1)).Pairwise fun p p2 =>
          getCol p.2 0 = getCol p2.2 0 → p.1 < p2.1) :=
  ⟨by decide,
    mostsimilar_pipeline [[Value.vstr ("a")], [Value.vstr ("b")], [Value.vstr ("a")]] 0
      ("q") (fun _ _ => 1) (by decide)⟩

/-- On a strictly sorted list, the dense ranks (one plus the number of
values below each element) are exactly `1, 2, ..., length`. -/
theorem rankList_strict {α : Type} [DecidableEq α] [LinearOrder α] :
    ∀ ds : List α, ds.Sorted (· < ·) →
      (ds.map fun x => (ds.filter fun y => decide (y < x)).length + 1) =
        List.range' 1 ds.length := by
  intro ds
  induction ds with
  | nil => intro _; rfl
  | cons d rest ih =>
      intro hs
      rcases List.sorted_cons.mp hs with ⟨hd, hrest⟩
      have hfd :
          ((d :: rest).filter fun y => decide (y < d)) = [] := by
        rw [List.filter_eq_nil_iff]
        intro a ha
        simp only [decide_eq_true_eq]
        rcases List.mem_cons.mp ha with h | h
        · exact h ▸ lt_irrefl d
        · exact not_lt_of_gt (hd a h)
      have hstep :
          ∀ x ∈ rest,
            ((d :: rest).filter fun y => decide (y < x)).length + 1 =
              ((rest.filter fun y => decide (y < x)).length + 1) + 1 := by
        intro x hx
        have : decide (d < x) = true := by simpa using hd x hx
        simp [List.filter_cons, this]
      calc
        ((d :: rest).map fun x =>
            ((d :: rest).filter fun y => decide (y < x)).length + 1) =
            (((d :: rest).filter fun y => decide (y < d)).length + 1) ::
              (rest.map fun x =>
                ((d :: rest).filter fun y => decide (y < x)).length + 1) := by
          rw [List.map_cons]
        _ = 1 :: (rest.map fun x =>
              ((rest.filter fun y => decide (y < x)).length + 1) + 1) := by
          rw [hfd]
          exact congrArg _ (List.map_congr_left hstep)
        _ = 1 :: ((rest.map fun x =>
              (rest.filter fun y => decide (y < x)).length + 1).map fun k =>
                1 + k) := by
          rw [List.map_map]
          refine congrArg _ (List.map_congr_left fun a _ => ?_)
          simp [Function.comp_def, Nat.add_comm]
        _ = 1 :: List.range' 2 rest.length := by
          rw [ih hrest, List.map_add_range']
        _ = List.range' 1 (d :: rest).length := by
          rw [List.length_cons, List.range'_succ]

/-- Dense ranks over an ascending (possibly repeating) series: the mapped
rank sequence is non-decreasing, and its values are exactly
`1 .. (number of distinct values)`. -/
theorem rank_map_of_sorted {α : Type} [DecidableEq α] [LinearOrder α]
    (ks : List α) (hs : ks.Sorted (· ≤ ·)) :
    (ks.map (denseRank ks)).Chain' (· ≤ ·) ∧
      ∀ k, k ∈ ks.map (denseRank ks) ↔ 1 ≤ k ∧ k ≤ ks.dedup.length := by
  have hmono : ∀ x y : α, x ≤ y → denseRank ks x ≤ denseRank ks y := by
    intro x y hxy
    unfold denseRank
    have hsub :
        List.Sublist (ks.dedup.filter fun a => decide (a < x))
          (ks.dedup.filter fun a => decide (a < y)) := by
      apply List.monotone_filter_right
      intro a ha
      simp only [decide_eq_true_eq] at ha ⊢
      exact lt_of_lt_of_le ha hxy
    exact Nat.succ_le_succ hsub.length_le
  constructor
  · rw [List.chain'_iff_pairwise, List.pairwise_map]
    exact hs.imp fun h => hmono _ _ h
  · intro k
    have hds : ks.dedup.Sorted (· < ·) :=
      List.Sorted.lt_of_le (List.Pairwise.sublist (ks.dedup_sublist) hs)
        (ks.nodup_dedup)
    have hrange := rankList_strict ks.dedup hds
    have hmm : ∀ x, denseRank ks x =
        (ks.dedup.filter fun y => decide (y < x)).length + 1 := fun _ => rfl
    constructor
    · rintro hk
      rcases List.mem_map.mp hk with ⟨x, hx, rfl⟩
      have hx2 : denseRank ks x ∈ ks.dedup.map (denseRank ks) :=
        List.mem_map.mpr ⟨x, List.mem_dedup.mpr hx, rfl⟩
      rw [show ks.dedup.map (denseRank ks) =
          ks.dedup.map fun x => (ks.dedup.filter fun y => decide (y < x)).length + 1
          from rfl, hrange] at hx2
      rcases List.mem_range'.mp hx2 with ⟨i, hi, hkeq⟩
      omega
    · rintro ⟨hk1, hk2⟩
      have : k ∈ ks.dedup.map (denseRank ks) := by
        rw [show ks.dedup.map (denseRank ks) =
            ks.dedup.map fun x =>
              (ks.dedup.filter fun y => decide (y < x)).length + 1
            from rfl, hrange]
        exact List.mem_range'.mpr ⟨k - 1, by omega, by omega⟩
      rcases List.mem_map.mp this with ⟨x, hx, hkeq⟩
      exact List.mem_map.mpr ⟨x, List.mem_dedup.mp hx, hkeq⟩

/-- The keys of the sorted duplicate rows, in output order. -/
def dupKeys (df : List (Nat × Row)) (K : List Nat) : List (List Value) :=
  ((repRows df K).insertionSort (dupSortLE K)).map fun q => keyTuple K q.2

/-- The distinct repeated key tuples of the table (in first-occurrence
order of the duplicate rows). -/
def distinctRepKeys (df : List (Nat × Row)) (K : List Nat) : List (List Value) :=
  ((repRows df K).map fun p => keyTuple K p.2).dedup

theorem dupKeys_perm (df : List (Nat × Row)) (K : List Nat) :
    (dupKeys df K).Perm ((repRows df K).map fun p => keyTuple K p.2) :=
  (List.perm_insertionSort _ _).map _

theorem dupKeys_sorted (df : List (Nat × Row)) (K : List Nat) :
    (dupKeys df K).Sorted (· ≤ ·) := by
  unfold dupKeys
  rw [List.Sorted, List.pairwise_map]
  refine (List.sorted_insertionSort (dupSortLE K) (repRows df K)).imp ?_
  intro a b hab
  exact Prod.Lex.monotone_fst _ _ hab

/-- C7 (claim): with a non-empty key list and at least one repeated key
tuple, the `set` column of `findDuplicates` is non-decreasing along the
sorted output, takes exactly the contiguous values `1 .. m` where `m` is
the number of distinct repeated key tuples of the table, and each row's
`set` equals the dense rank of its key tuple among the table's distinct
repeated key tuples. -/
theorem duplicates_set_dense_rank (df : List (Nat × Row)) (K : List Nat)
    (hK : K ≠ [])
    (hrep : ∃ p ∈ df,
      2 ≤ df.countP fun q => decide (keyTuple K q.2 = keyTuple K p.2)) :
    ((get_duplicated df K).map Prod.fst).Chain' (· ≤ ·) ∧
      (∀ k, k ∈ (get_duplicated df K).map Prod.fst ↔
          1 ≤ k ∧ k ≤ (distinctRepKeys df K).length) ∧
      ∀ pr ∈ get_duplicated df K,
        pr.1 = ((distinctRepKeys df K).filter fun y =>
            decide (y < keyTuple K pr.2.2)).length + 1 := by
  have hfst : (get_duplicated df K).map Prod.fst =
      (dupKeys df K).map (denseRank (dupKeys df K)) := by
    unfold get_duplicated dupKeys
    rw [List.map_map, List.map_map]
    rfl
  have hrank := rank_map_of_sorted (dupKeys df K) (dupKeys_sorted df K)
  have hlen : (dupKeys df K).dedup.length = (distinctRepKeys df K).length :=
    ((dupKeys_perm df K).dedup).length_eq
  refine ⟨?_, ?_, ?_⟩
  · rw [hfst]; exact hrank.1
  · intro k
    rw [hfst, hrank.2 k, hlen]
  · intro pr hpr
    unfold get_duplicated at hpr
    rcases List.mem_map.mp hpr with ⟨p, _, rfl⟩
    show denseRank (dupKeys df K) (keyTuple K p.2) = _
    unfold denseRank
    have hpf :
        ((dupKeys df K).dedup.filter fun y =>
            decide (y < keyTuple K p.2)).Perm
          ((distinctRepKeys df K).filter fun y =>
            decide (y < keyTuple K p.2)) :=
      ((dupKeys_perm df K).dedup).filter _
    rw [hpf.length_eq]

/-- Witness for C7 on the table `[[2], [1], [2], [1], [3]]`, key `[0]`:
keys `[1]` and `[2]` repeat; the sorted output carries `set = [1,1,2,2]`. -/
theorem duplicates_set_dense_rank_witness :
    ([0] : List Nat) ≠ [] ∧
      (∃ p ∈ withRowNum [[Value.vint 2], [Value.vint 1], [Value.vint 2],
          [Value.vint 1], [Value.vint 3]],
        2 ≤ (withRowNum [[Value.vint 2], [Value.vint 1], [Value.vint 2],
              [Value.vint 1], [Value.vint 3]]).countP
            fun q => decide (keyTuple [0] q.2 = keyTuple [0] p.2)) ∧
      (((get_duplicated
              (withRowNum [[Value.vint 2], [Value.vint 1], [Value.vint 2],
                [Value.vint 1], [Value.vint 3]])
              [0]).map Prod.fst).Chain' (· ≤ ·) ∧
        (∀ k, k ∈ (get_duplicated
              (withRowNum [[Value.vint 2], [Value.vint 1], [Value.vint 2],
                [Value.vint 1], [Value.vint 3]])
              [0]).map Prod.fst ↔
            1 ≤ k ∧ k ≤ (distinctRepKeys
                (withRowNum [[Value.vint 2], [Value.vint 1], [Value.vint 2],
                  [Value.vint 1], [Value.vint 3]])
                [0]).length) ∧
        ∀ pr ∈ get_duplicated
            (withRowNum [[Value.vint 2], [Value.vint 1], [Value.vint 2],
              [Value.vint 1], [Value.vint 3]])
            [0],
          pr.1 = ((distinctRepKeys
                (withRowNum [[Value.vint 2], [Value.vint 1], [Value.vint 2],
                  [Value.vint 1], [Value.vint 3]])
                [0]).filter fun y =>
              decide (y < keyTuple [0] pr.2.2)).length + 1) :=
  ⟨by decide, ⟨(1, [Value.vint 2]), by decide, by decide⟩,
    duplicates_set_dense_rank
      (withRowNum [[Value.vint 2], [Value.vint 1], [Value.vint 2],
        [Value.vint 1], [Value.vint 3]])
      [0] (by decide)
      ⟨(1, [Value.vint 2]), by decide, by decide⟩⟩

end StringSearch
